import Mathlib

/-!
Verification of the rustplotlib categorised-bars core: the `BarGroup`
recursive layout engine (`bar_group.rs`), the ordered categorical
aggregation engine (`categorised_values.rs`, `segmented_value.rs`,
`ordered_set.rs`) and the `BarLabel`/`BarPosition` data model.

Machine integers (`usize`) are embedded as `Nat`; the one subtraction the
source performs on `usize` values is modelled by `wrap_sub`, which wraps
modulo `2 ^ 64` exactly as a release-mode build does.  The `f32`
arithmetic inside `calculate_bar_width` is modelled exactly: an IEEE-754
single-precision value produced by casting a `usize` or by dividing two
such casts is a nonnegative number with a 24-bit significand, and every
operation rounds its exact result to nearest, ties to even.
-/

/-- Bit width wrap-around constant for `usize` (64-bit target). -/
def USIZE : Nat := 2 ^ 64

/-- Wrapping subtraction on `usize` as performed by a release build:
`a - b` where underflow wraps modulo `2 ^ 64` (a debug build would panic
on the underflowing case). -/
def wrap_sub (a b : Nat) : Nat := if b ≤ a then a - b else a + USIZE - b

/-- Round the rational `a / b` to the nearest integer, ties to even
(the IEEE-754 rounding used by every `f32` operation). -/
def rhe (a b : Nat) : Nat :=
  if 2 * (a % b) < b then a / b
  else if b < 2 * (a % b) then a / b + 1
  else if (a / b) % 2 = 0 then a / b else a / b + 1

/-- Fuelled floor-log2: `log2fuel fuel m` is `⌊log₂ m⌋` provided
`1 ≤ m ≤ 2 ^ fuel`.  Structural recursion on the fuel keeps the
function kernel-reducible. -/
def log2fuel : Nat → Nat → Nat
  | 0, _ => 0
  | fuel + 1, m => if 2 ≤ m then log2fuel fuel (m / 2) + 1 else 0

/-- `⌊log₂ n⌋` for `1 ≤ n` (kernel-reducible). -/
def natLog2 (n : Nat) : Nat := log2fuel n n

/-- Fuelled search for the least `k` with `b ≤ a * 2 ^ k` (defined for
`1 ≤ a`; the fuel only needs to satisfy `b ≤ a * 2 ^ fuel`). -/
def upshiftFuel : Nat → Nat → Nat → Nat
  | 0, _, _ => 0
  | fuel + 1, a, b => if b ≤ a then 0 else upshiftFuel fuel (2 * a) b + 1

/-- The value of `n as f32` for a `usize` value `n`: exact below `2 ^ 24`,
otherwise rounded to nearest (ties to even) on the lattice of multiples
of `2 ^ (⌊log₂ n⌋ - 23)`.  The result of this cast is always an integer,
so the model returns a `Nat`. -/
def f32ofNat (n : Nat) : Nat :=
  if n < 2 ^ 24 then n
  else rhe n (2 ^ (natLog2 n - 23)) * 2 ^ (natLog2 n - 23)

/-- `⌊x / y⌋` where `x`, `y` are the integers held by two `f32` values
(`1 ≤ y ≤ x` or `1 ≤ x < y`) and the division is IEEE-754 single
precision: the exact quotient is rounded to nearest, ties to even, on
the 24-bit-significand lattice, and the floor of that rounded value is
returned. -/
def floorF32Div (a b : Nat) : Nat :=
  if 2 ^ 24 ≤ a / b then
    rhe a (b * 2 ^ (natLog2 (a / b) - 23)) * 2 ^ (natLog2 (a / b) - 23)
  else if b ≤ a then
    rhe (a * 2 ^ (23 - natLog2 (a / b))) b / 2 ^ (23 - natLog2 (a / b))
  else
    rhe (a * 2 ^ (23 + upshiftFuel b a b)) b / 2 ^ (23 + upshiftFuel b a b)

/-- A leaf of the layout tree: numeric key plus display label
(`bar_label.rs`). -/
structure BarLabel where
  key : Nat
  label : String
deriving DecidableEq

/-- `BarLabel::from(usize)`: label is the stringified key. -/
def BarLabel.ofKey (key : Nat) : BarLabel := ⟨key, Nat.repr key⟩

/-- Output value of the layout walk: a leaf's key and its inclusive
1-based pixel span (`external_types.rs`). -/
structure BarPosition where
  key : Nat
  position_start : Nat
  position_end : Nat
deriving DecidableEq

mutual

/-- A node of the layout tree (`bar_group.rs`): display label, the three
margins (field order as in the source: `margin_before`, `margin_after`,
`margin_between`) and the children. -/
inductive BarGroup where
  | mk (label : String) (margin_before margin_after margin_between : Nat)
      (children : BarLabelChildren)

/-- A node owns either child groups or leaf labels, never both. -/
inductive BarLabelChildren where
  | SubGroups (subgroups : BarGroupList)
  | Labels (labels : List BarLabel)

/-- Child-group sequence (a specialised list so that all recursions over
the tree are structural over the mutual family). -/
inductive BarGroupList where
  | nil
  | cons (head : BarGroup) (tail : BarGroupList)

end

def BarGroup.label : BarGroup → String
  | .mk l _ _ _ _ => l

def BarGroup.margin_before : BarGroup → Nat
  | .mk _ mb _ _ _ => mb

def BarGroup.margin_after : BarGroup → Nat
  | .mk _ _ ma _ _ => ma

def BarGroup.margin_between : BarGroup → Nat
  | .mk _ _ _ mbtw _ => mbtw

def BarGroup.children : BarGroup → BarLabelChildren
  | .mk _ _ _ _ c => c

def BarGroupList.length : BarGroupList → Nat
  | .nil => 0
  | .cons _ t => t.length + 1

/-- `BarGroup::child_count`. -/
def BarGroup.child_count (g : BarGroup) : Nat :=
  match g.children with
  | .SubGroups subgroups => subgroups.length
  | .Labels labels => labels.length

/-- `BarGroup::margin_total`:
`margin_before + margin_between * usize::max(child_count() - 1, 0) + margin_after`.
The subtraction is `usize` subtraction, hence `wrap_sub` (the `max` with
`0` is the identity on unsigned values). -/
def BarGroup.margin_total (g : BarGroup) : Nat :=
  g.margin_before + g.margin_between * (Nat.max (wrap_sub g.child_count 1) 0)
    + g.margin_after

/-- Sum of `margin_total` over a child-group list. -/
def BarGroupList.sumMarginTotal : BarGroupList → Nat
  | .nil => 0
  | .cons g t => g.margin_total + t.sumMarginTotal

/-- The fold at the start of `BarGroup::calculate_bar_width`:
`self.groups().fold(self.margin_total(), |acc, sg| acc + sg.margin_total())`.
`groups()` yields only the immediate child groups (none for a
leaf-parent node). -/
def BarGroup.margin_dimension (g : BarGroup) : Nat :=
  match g.children with
  | .SubGroups subgroups => g.margin_total + subgroups.sumMarginTotal
  | .Labels _ => g.margin_total

mutual

/-- `BarGroup::labels()`: depth-first, left-to-right traversal of every
leaf label of the subtree (`BarLabelIterator`). -/
def BarGroup.labels : BarGroup → List BarLabel
  | .mk _ _ _ _ (.Labels ls) => ls
  | .mk _ _ _ _ (.SubGroups gs) => BarGroupList.labelsList gs

def BarGroupList.labelsList : BarGroupList → List BarLabel
  | .nil => []
  | .cons g t => g.labels ++ t.labelsList

end

/-- `BarGroup::calculate_bar_width`:
`let margin_dimension = groups().fold(margin_total(), ..);`
`let width = (dimension - margin_dimension) as f32 / labels().count() as f32;`
`f32::floor(width) as usize`.
The `usize` subtraction wraps (`wrap_sub`), the casts and the division
are exact IEEE-754 single precision (`f32ofNat`, `floorF32Div`), and
`as usize` saturates: `NaN` (here `0.0 / 0.0`) becomes `0`, `+∞` (a
positive number divided by `0.0`) becomes `usize::MAX`, and any finite
result is clamped to `usize::MAX`. -/
def BarGroup.calculate_bar_width (g : BarGroup) (dimension : Nat) : Nat :=
  let x := wrap_sub dimension g.margin_dimension
  let number_of_labels := g.labels.length
  if number_of_labels = 0 then (if x = 0 then 0 else USIZE - 1)
  else if x = 0 then 0
  else Nat.min (floorF32Div (f32ofNat x) (f32ofNat number_of_labels)) (USIZE - 1)

mutual

/-- `BarGroup::width_for_bar_width`: the node's `margin_total` plus the
sum of the children's `width_for_bar_width` (internal node) or
`child_count * bar_width` (leaf-parent node). -/
def BarGroup.width_for_bar_width : BarGroup → Nat → Nat
  | .mk l mb ma mbtw (.SubGroups gs), bar_width =>
      (BarGroup.mk l mb ma mbtw (.SubGroups gs)).margin_total
        + BarGroupList.sumWidthFor gs bar_width
  | .mk l mb ma mbtw (.Labels ls), bar_width =>
      (BarGroup.mk l mb ma mbtw (.Labels ls)).margin_total
        + ls.length * bar_width

def BarGroupList.sumWidthFor : BarGroupList → Nat → Nat
  | .nil, _ => 0
  | .cons g t, bar_width =>
      g.width_for_bar_width bar_width + t.sumWidthFor bar_width

end

/-- Emission of one leaf-parent run of `BarPositionIterator::next`
(lines 308-321 of `bar_group.rs`): each label is emitted at the current
position with inclusive end `position + bar_width - 1`, after which the
position advances by `bar_width + margin_between`. -/
def emitLabels : List BarLabel → Nat → Nat → Nat → List BarPosition
  | [], _, _, _ => []
  | l :: ls, p, w, mbtw =>
      ⟨l.key, p, p + w - 1⟩ :: emitLabels ls (p + w + mbtw) w mbtw

mutual

/-- Functional reading of `BarPositionIterator` for one node whose
`margin_before` has already been consumed by the caller: a leaf-parent
emits its labels from the current position; an internal node processes
its children left to right. -/
def BarGroup.emit : BarGroup → Nat → Nat → List BarPosition
  | .mk _ _ _ mbtw (.Labels ls), p, w => emitLabels ls p w mbtw
  | .mk _ _ _ mbtw (.SubGroups gs), p, w => BarGroupList.emitList gs p w mbtw

/-- Child processing of `BarPositionIterator` (`next_group` /
`next_subgroup_label`): before descending the position advances by the
child's `margin_before`; while the child yields, the parent's position
tracks `label.position_end + 1`; when the child is exhausted the parent
adds the child's `margin_after` plus its own `margin_between`.  A child
that yields nothing leaves the parent's position untouched (its
`margin_before` went only into the discarded child iterator) before the
`margin_after + margin_between` advance. -/
def BarGroupList.emitList : BarGroupList → Nat → Nat → Nat → List BarPosition
  | .nil, _, _, _ => []
  | .cons g t, p, w, mbtw =>
      let out := g.emit (p + g.margin_before) w
      let p2 := (match out.getLast? with
                 | some lp => lp.position_end + 1
                 | none => p) + g.margin_after + mbtw
      out ++ t.emitList p2 w mbtw

end

/-- `BarGroup::bar_positions`: computes the bar width, then walks the
tree starting at 1-based position `1 + margin_before`. -/
def BarGroup.bar_positions (g : BarGroup) (dimension : Nat) : List BarPosition :=
  g.emit (1 + g.margin_before) (g.calculate_bar_width dimension)

-- Concrete fixtures from the crate's unit tests (`unit_tests.rs`).

/-- Leaf labels 1967, 1968, 1969 ("sixties"). -/
def labels60 : List BarLabel :=
  [BarLabel.ofKey 1967, BarLabel.ofKey 1968, BarLabel.ofKey 1969]

/-- Leaf labels 1970..=1974 ("seventies"). -/
def labels70 : List BarLabel :=
  [BarLabel.ofKey 1970, BarLabel.ofKey 1971, BarLabel.ofKey 1972,
   BarLabel.ofKey 1973, BarLabel.ofKey 1974]

/-- `BarGroup::new("sixties").with_margins(2, 3, 4).define_labels(labels60)`. -/
def sixties : BarGroup := ⟨"sixties", 2, 4, 3, .Labels labels60⟩

/-- `BarGroup::new("seventies").define_labels(labels70).with_margins(8, 9, 10)`. -/
def seventies : BarGroup := ⟨"seventies", 8, 10, 9, .Labels labels70⟩

/-- The two-level test tree `sixties_and_seventies()`: outer margins
5/6/7 around the "sixties" and "seventies" groups. -/
def sixtiesAndSeventies : BarGroup :=
  ⟨"years", 5, 7, 6, .SubGroups (.cons sixties (.cons seventies .nil))⟩

/-- Single flat group with the eight labels 1967..=1974 and no margins. -/
def yearsFlat : BarGroup :=
  ⟨"years", 0, 0, 0, .Labels
    [BarLabel.ofKey 1967, BarLabel.ofKey 1968, BarLabel.ofKey 1969,
     BarLabel.ofKey 1970, BarLabel.ofKey 1971, BarLabel.ofKey 1972,
     BarLabel.ofKey 1973, BarLabel.ofKey 1974]⟩

/-- Single leaf-parent group with one label and no margins (used to
exhibit the `f32` precision loss of `calculate_bar_width`). -/
def oneLabelFlat : BarGroup := ⟨"one", 0, 0, 0, .Labels [BarLabel.ofKey 1]⟩

/-- Three-level tree: the pixel-consuming margin (`margin_before = 50`)
sits on a grandchild group, which `calculate_bar_width` never inspects. -/
def deepTree : BarGroup :=
  ⟨"A", 0, 0, 0, .SubGroups (.cons
    (⟨"A1", 0, 0, 0, .SubGroups (.cons
      (⟨"A11", 50, 0, 0, .Labels [BarLabel.ofKey 1]⟩ : BarGroup) .nil)⟩ : BarGroup)
    .nil)⟩

/-- A group with zero children and `margin_between = 1` (margins 0/1/0):
the input on which `margin_total` underflows. -/
def zeroChildGroup : BarGroup := ⟨"empty", 0, 0, 1, .SubGroups .nil⟩

-- The original claim-C2 cursor discipline, transcribed literally from the
-- spec sentence: the cursor advances by `bar_width + margin_between` after
-- EVERY emitted label (including the last one of a child), and by the
-- child's `margin_after` plus this node's `margin_between` when a child
-- group completes.  This is the spec-side definition used to compare the
-- described discipline with the code's behaviour.

/-- Cursor-threaded label emission per the spec's words: emit at the
cursor, then advance by `bar_width + margin_between` (also after the
last label). -/
def owalkLabels : List BarLabel → Nat → Nat → Nat → List BarPosition × Nat
  | [], c, _, _ => ([], c)
  | l :: ls, c, w, mbtw =>
      let rest := owalkLabels ls (c + w + mbtw) w mbtw
      (⟨l.key, c, c + w - 1⟩ :: rest.1, rest.2)

mutual

/-- Spec-described walk of one node (margin_before already consumed):
returns the emitted positions and the cursor after the node's children,
threaded purely as the spec sentence states. -/
def BarGroup.owalk : BarGroup → Nat → Nat → List BarPosition × Nat
  | .mk _ _ _ mbtw (.Labels ls), c, w => owalkLabels ls c w mbtw
  | .mk _ _ _ mbtw (.SubGroups gs), c, w => BarGroupList.owalkList gs c w mbtw

/-- Spec-described child processing: advance by the child's
`margin_before`, walk it, then advance by its `margin_after` plus this
node's `margin_between` — with the cursor threaded through, never reset. -/
def BarGroupList.owalkList : BarGroupList → Nat → Nat → Nat → List BarPosition × Nat
  | .nil, c, _, _ => ([], c)
  | .cons g t, c, w, mbtw =>
      let r := g.owalk (c + g.margin_before) w
      let rest := BarGroupList.owalkList t (r.2 + g.margin_after + mbtw) w mbtw
      (r.1 ++ rest.1, rest.2)

end

/-- Whole-tree walk per the original spec sentence, starting at
`1 + margin_before`. -/
def BarGroup.owalkPositions (g : BarGroup) (dimension : Nat) : List BarPosition :=
  (g.owalk (1 + g.margin_before) (g.calculate_bar_width dimension)).1

/-! ## Aggregation engine (`ordered_set.rs`, `segmented_value.rs`,
`categorised_values.rs`) -/

/-- Position of the first occurrence of `k` in `l` (`none` if absent):
the value the `HashMap` of an `OrderedSet` associates with `k`. -/
def idxOf? {α : Type} [DecidableEq α] : List α → α → Option Nat
  | [], _ => none
  | x :: xs, k => if x = k then some 0 else (idxOf? xs k).map (fun i => i + 1)

/-- `OrderedSet<O>` (`ordered_set.rs`): stable first-seen-order indexing.
The source keeps a `Vec` of keys plus a `HashMap` from key to index that
is, by construction, exactly the position of the key's first occurrence
in the `Vec`; the model therefore carries the `Vec` and realises the map
lookup as a positional search. -/
structure OrderedSet (α : Type) where
  list : List α
deriving DecidableEq

/-- `OrderedSet::new` / `Default`. -/
def OrderedSet.new {α : Type} : OrderedSet α := ⟨[]⟩

/-- `OrderedSet::len`. -/
def OrderedSet.len {α : Type} (s : OrderedSet α) : Nat := s.list.length

/-- `OrderedSet::index_of`: the map lookup, `None` when absent. -/
def OrderedSet.index_of {α : Type} [DecidableEq α] (s : OrderedSet α) (k : α) :
    Option Nat :=
  idxOf? s.list k

/-- `OrderedSet::define_if_not_exist`: return the existing index without
mutation, or append the key at index `len` (the current size) and return
that. -/
def OrderedSet.define_if_not_exist {α : Type} [DecidableEq α]
    (s : OrderedSet α) (k : α) : Nat × OrderedSet α :=
  match idxOf? s.list k with
  | some i => (i, s)
  | none => (s.list.length, ⟨s.list ++ [k]⟩)

/-- Fold a whole key sequence through `define_if_not_exist`, starting
from the empty set (the body of `with_categories` / `with_segments`
after the `clear()`). -/
def OrderedSet.insertAll {α : Type} [DecidableEq α] (ks : List α) : OrderedSet α :=
  ks.foldl (fun s k => (s.define_if_not_exist k).2) OrderedSet.new

/-- `SegmentedValue<VAL>` (`segmented_value.rs`): a `BTreeMap` from
segment index to accumulated value (modelled as an association list kept
sorted by key) plus the running `magnitude`. -/
structure SegmentedValue (VAL : Type) where
  segments : List (Nat × VAL)
  magnitude : VAL
deriving DecidableEq

/-- `SegmentedValue::default()`: empty map, zero magnitude. -/
def SegmentedValue.empty {VAL : Type} [Zero VAL] : SegmentedValue VAL := ⟨[], 0⟩

/-- `self.segments.entry(i).or_insert(default) += v` on a sorted
association list: create the bucket at zero if absent, then add `v`. -/
def segUpsert {VAL : Type} [Add VAL] [Zero VAL] :
    List (Nat × VAL) → Nat → VAL → List (Nat × VAL)
  | [], i, v => [(i, (0 : VAL) + v)]
  | (j, w) :: rest, i, v =>
      if i < j then (i, (0 : VAL) + v) :: (j, w) :: rest
      else if i = j then (j, w + v) :: rest
      else (j, w) :: segUpsert rest i v

/-- `SegmentedValue::add`: bump the magnitude and the addressed bucket
by the same value. -/
def SegmentedValue.add {VAL : Type} [Add VAL] [Zero VAL]
    (sv : SegmentedValue VAL) (segment_index : Nat) (value : VAL) :
    SegmentedValue VAL :=
  ⟨segUpsert sv.segments segment_index value, sv.magnitude + value⟩

/-- `SegmentedValue::value_of_segment`. -/
def SegmentedValue.value_of_segment {VAL : Type} (sv : SegmentedValue VAL)
    (segment_index : Nat) : Option VAL :=
  List.lookup segment_index sv.segments

/-- `SegmentedValue::has_values`: `segments.len() > 0`. -/
def SegmentedValue.has_values {VAL : Type} (sv : SegmentedValue VAL) : Bool :=
  decide (0 < sv.segments.length)

/-- `SegmentedValue::height`: the magnitude. -/
def SegmentedValue.height {VAL : Type} (sv : SegmentedValue VAL) : VAL :=
  sv.magnitude

/-- A sequence of `add` calls applied in order. -/
def SegmentedValue.applyAdds {VAL : Type} [Add VAL] [Zero VAL]
    (sv : SegmentedValue VAL) (calls : List (Nat × VAL)) : SegmentedValue VAL :=
  calls.foldl (fun s c => s.add c.1 c.2) sv

/-- `CategorisedValues<CAT, SEG, VAL>` (`categorised_values.rs`): the two
ordered key sets and the `BTreeMap` from category index to accumulator
(modelled, like `segments`, as a sorted association list). -/
structure CategorisedValues (CAT SEG VAL : Type) where
  category_keys : OrderedSet CAT
  segment_keys : OrderedSet SEG
  values : List (Nat × SegmentedValue VAL)
deriving DecidableEq

/-- `CategorisedValues::new` / `Default`. -/
def CategorisedValues.new {CAT SEG VAL : Type} : CategorisedValues CAT SEG VAL :=
  ⟨OrderedSet.new, OrderedSet.new, []⟩

/-- `self.values.entry(bar_index).or_insert(SegmentedValue::default()).add(..)`
on the sorted association list. -/
def catUpsert {VAL : Type} [Add VAL] [Zero VAL] :
    List (Nat × SegmentedValue VAL) → Nat → Nat → VAL →
      List (Nat × SegmentedValue VAL)
  | [], bi, si, v => [(bi, SegmentedValue.empty.add si v)]
  | (k, sv) :: rest, bi, si, v =>
      if bi < k then (bi, SegmentedValue.empty.add si v) :: (k, sv) :: rest
      else if bi = k then (k, sv.add si v) :: rest
      else (k, sv) :: catUpsert rest bi si v

/-- `CategorisedValues::add_to_category`. -/
def CategorisedValues.add_to_category {CAT SEG VAL : Type} [Add VAL] [Zero VAL]
    (cv : CategorisedValues CAT SEG VAL) (bar_index stack_index : Nat)
    (value : VAL) : CategorisedValues CAT SEG VAL :=
  { cv with values := catUpsert cv.values bar_index stack_index value }

/-- One iteration of the `add_data` loop: resolve the category and
segment keys through the two ordered sets (assigning fresh indices on
first sight) and add the value under the category index. -/
def CategorisedValues.addItem {CAT SEG VAL : Type} [DecidableEq CAT]
    [DecidableEq SEG] [Add VAL] [Zero VAL]
    (cv : CategorisedValues CAT SEG VAL) (item : CAT × SEG × VAL) :
    CategorisedValues CAT SEG VAL :=
  let rb := cv.category_keys.define_if_not_exist item.1
  let rs := cv.segment_keys.define_if_not_exist item.2.1
  (CategorisedValues.mk rb.2 rs.2 cv.values).add_to_category rb.1 rs.1 item.2.2

/-- `CategorisedValues::add_data`: fold the collection through `addItem`. -/
def CategorisedValues.add_data {CAT SEG VAL : Type} [DecidableEq CAT]
    [DecidableEq SEG] [Add VAL] [Zero VAL]
    (cv : CategorisedValues CAT SEG VAL) (collection : List (CAT × SEG × VAL)) :
    CategorisedValues CAT SEG VAL :=
  collection.foldl CategorisedValues.addItem cv

/-- `CategorisedValues::with_categories`: clear the category set, then
define every supplied key in order. -/
def CategorisedValues.with_categories {CAT SEG VAL : Type} [DecidableEq CAT]
    (cv : CategorisedValues CAT SEG VAL) (ks : List CAT) :
    CategorisedValues CAT SEG VAL :=
  { cv with category_keys := OrderedSet.insertAll ks }

/-- `CategorisedValues::with_segments`: clear the segment set, then
define every supplied key in order. -/
def CategorisedValues.with_segments {CAT SEG VAL : Type} [DecidableEq SEG]
    (cv : CategorisedValues CAT SEG VAL) (ks : List SEG) :
    CategorisedValues CAT SEG VAL :=
  { cv with segment_keys := OrderedSet.insertAll ks }

/-- `CategorisedValues::categories()`: the `BTreeMap` iteration, i.e. the
sorted association list itself (ascending category index). -/
def CategorisedValues.categories {CAT SEG VAL : Type}
    (cv : CategorisedValues CAT SEG VAL) : List (Nat × SegmentedValue VAL) :=
  cv.values

/-- The lookup performed by `category_index_to_label()`s closure,
`&self.category_keys[*category_index]`, made total with `Option`:
`none` is exactly the out-of-bounds panic. -/
def CategorisedValues.category_index_to_label {CAT SEG VAL : Type}
    (cv : CategorisedValues CAT SEG VAL) (category_index : Nat) : Option CAT :=
  cv.category_keys.list[category_index]?

/-- One builder call on a `CategorisedValues` accumulator. -/
inductive CVOp (CAT SEG VAL : Type) where
  | withCategories (ks : List CAT)
  | withSegments (ks : List SEG)
  | addData (items : List (CAT × SEG × VAL))

/-- Apply one builder call. -/
def CVOp.step {CAT SEG VAL : Type} [DecidableEq CAT] [DecidableEq SEG]
    [Add VAL] [Zero VAL] (cv : CategorisedValues CAT SEG VAL)
    (op : CVOp CAT SEG VAL) : CategorisedValues CAT SEG VAL :=
  match op with
  | .withCategories ks => cv.with_categories ks
  | .withSegments ks => cv.with_segments ks
  | .addData items => cv.add_data items

/-- Run a sequence of builder calls from `CategorisedValues::new()`. -/
def CVOp.run {CAT SEG VAL : Type} [DecidableEq CAT] [DecidableEq SEG]
    [Add VAL] [Zero VAL] (ops : List (CVOp CAT SEG VAL)) :
    CategorisedValues CAT SEG VAL :=
  ops.foldl CVOp.step CategorisedValues.new

/-- Does this call ingest data? -/
def CVOp.isAddData {CAT SEG VAL : Type} : CVOp CAT SEG VAL → Bool
  | .addData _ => true
  | _ => false

/-- Does this call predefine the category order? -/
def CVOp.isWithCategories {CAT SEG VAL : Type} : CVOp CAT SEG VAL → Bool
  | .withCategories _ => true
  | _ => false

/-- A builder sequence is well-ordered when no `with_categories` call
occurs at or after the first `add_data` call. -/
def CVOp.okSeq {CAT SEG VAL : Type} (ops : List (CVOp CAT SEG VAL)) : Bool :=
  (ops.dropWhile (fun o => !o.isAddData)).all (fun o => !o.isWithCategories)

/-- Every category index stored in the values map resolves to a label
(the in-bounds invariant of `category_index_to_label`). -/
def CategorisedValues.allInBounds {CAT SEG VAL : Type}
    (cv : CategorisedValues CAT SEG VAL) : Bool :=
  cv.values.all (fun p => (cv.category_index_to_label p.1).isSome)

/-! ## Arithmetic facts about the `f32` model -/

theorem rhe_ge (a b : Nat) : a / b ≤ rhe a b := by
  unfold rhe
  split
  · exact Nat.le_refl _
  · split
    · exact Nat.le_succ _
    · split
      · exact Nat.le_refl _
      · exact Nat.le_succ _

theorem rhe_le (a b : Nat) : rhe a b ≤ a / b + 1 := by
  unfold rhe
  split
  · exact Nat.le_succ _
  · split
    · exact Nat.le_refl _
    · split
      · exact Nat.le_succ _
      · exact Nat.le_refl _

theorem log2fuel_spec :
    ∀ fuel m, 1 ≤ m → m ≤ 2 ^ fuel →
      2 ^ log2fuel fuel m ≤ m ∧ m < 2 ^ (log2fuel fuel m + 1) := by
  intro fuel
  induction fuel with
  | zero =>
    intro m h1 h2
    have : m = 1 := by simpa using Nat.le_antisymm h2 h1
    subst this
    simp [log2fuel]
  | succ fuel ih =>
    intro m h1 h2
    by_cases h : 2 ≤ m
    · have hrec := ih (m / 2) (by omega)
        (by
          have hp : (2 : Nat) ^ (fuel + 1) = 2 * 2 ^ fuel := by ring
          omega)
      have hlo := hrec.1
      have hhi := hrec.2
      have hstep : log2fuel (fuel + 1) m = log2fuel fuel (m / 2) + 1 := by
        simp [log2fuel, h]
      rw [hstep]
      constructor
      · calc 2 ^ (log2fuel fuel (m / 2) + 1) = 2 * 2 ^ log2fuel fuel (m / 2) := by
              ring
          _ ≤ 2 * (m / 2) := by omega
          _ ≤ m := by omega
      · have : m < 2 * (2 ^ (log2fuel fuel (m / 2) + 1)) := by omega
        calc m < 2 * 2 ^ (log2fuel fuel (m / 2) + 1) := this
          _ = 2 ^ (log2fuel fuel (m / 2) + 1 + 1) := by ring
    · have : m = 1 := by omega
      subst this
      simp [log2fuel]

theorem natLog2_spec (n : Nat) (h : 1 ≤ n) :
    2 ^ natLog2 n ≤ n ∧ n < 2 ^ (natLog2 n + 1) :=
  log2fuel_spec n n h (Nat.le_of_lt (Nat.lt_two_pow n))

theorem natLog2_lt_of_lt (n k : Nat) (h1 : 1 ≤ n) (h : n < 2 ^ k) :
    natLog2 n < k := by
  by_contra hc
  push_neg at hc
  have h2 := Nat.pow_le_pow_right (by omega : 1 ≤ 2) hc
  have h3 := (natLog2_spec n h1).1
  omega

theorem upshiftFuel_spec :
    ∀ fuel a b, 1 ≤ a → b ≤ a * 2 ^ fuel →
      b ≤ a * 2 ^ upshiftFuel fuel a b ∧
        (a < b → 1 ≤ upshiftFuel fuel a b ∧
          a * 2 ^ (upshiftFuel fuel a b - 1) < b) := by
  intro fuel
  induction fuel with
  | zero =>
    intro a b ha hb
    simp only [pow_zero, Nat.mul_one] at hb
    simp only [upshiftFuel]
    exact ⟨by simpa using hb, fun hab => absurd hb (by omega)⟩
  | succ fuel ih =>
    intro a b ha hb
    by_cases h : b ≤ a
    · simp only [upshiftFuel, if_pos h]
      exact ⟨by simpa using h, fun hab => absurd h (by omega)⟩
    · have hrec := ih (2 * a) b (by omega)
        (by
          calc b ≤ a * 2 ^ (fuel + 1) := hb
            _ = 2 * a * 2 ^ fuel := by ring)
      have hstep : upshiftFuel (fuel + 1) a b = upshiftFuel fuel (2 * a) b + 1 := by
        simp [upshiftFuel, h]
      rw [hstep]
      refine ⟨by
        calc b ≤ 2 * a * 2 ^ upshiftFuel fuel (2 * a) b := hrec.1
          _ = a * 2 ^ (upshiftFuel fuel (2 * a) b + 1) := by ring, ?_⟩
      intro _
      refine ⟨by omega, ?_⟩
      simp only [Nat.add_sub_cancel]
      by_cases h2 : 2 * a < b
      · have hm := (hrec.2 h2).2
        have h1k := (hrec.2 h2).1
        set kk := upshiftFuel fuel (2 * a) b with hkk
        have : 2 * a * 2 ^ (kk - 1) = a * 2 ^ kk := by
          have : kk - 1 + 1 = kk := by omega
          calc 2 * a * 2 ^ (kk - 1) = a * (2 ^ (kk - 1) * 2) := by ring
            _ = a * 2 ^ (kk - 1 + 1) := by rw [Nat.pow_succ]
            _ = a * 2 ^ kk := by rw [this]
        omega
      · have hk0 : upshiftFuel fuel (2 * a) b = 0 := by
          cases fuel with
          | zero => simp [upshiftFuel]
          | succ fuel => simp [upshiftFuel]; omega
        rw [hk0]
        simpa using (by omega : a < b)

theorem f32ofNat_exact (n : Nat) (h : n < 2 ^ 24) : f32ofNat n = n := by
  unfold f32ofNat
  rw [if_pos h]

theorem floorF32Div_exact (a b : Nat) (ha1 : 1 ≤ a) (ha : a < 2 ^ 23)
    (hb1 : 1 ≤ b) (hb : b ≤ 2 ^ 23) : floorF32Div a b = a / b := by
  by_cases hba : b ≤ a
  case pos =>
    set k := a / b with hk
    have hk1 : 1 ≤ k := (Nat.one_le_div_iff (by omega)).2 hba
    have hklt : k < 2 ^ 23 := Nat.lt_of_le_of_lt (Nat.div_le_self a b) ha
    have hnot : ¬ 2 ^ 24 ≤ a / b := by rw [← hk] at *; omega
    unfold floorF32Div
    rw [if_neg hnot, if_pos hba]
    have he := natLog2_spec k hk1
    set e := natLog2 k with hee
    have helt : e < 23 := natLog2_lt_of_lt k 23 hk1 hklt
    set s := 23 - e with hs
    have hs1 : 1 ≤ s := by omega
    set P := 2 ^ s with hP
    have hbk : b * 2 ^ e ≤ a := by
      calc b * 2 ^ e ≤ b * k := Nat.mul_le_mul_left b he.1
        _ = k * b := Nat.mul_comm b k
        _ ≤ a := Nat.div_mul_le_self a b
    have hsplit : 2 ^ e * P = 2 ^ 23 := by
      rw [hP, ← Nat.pow_add]
      congr 1
      omega
    have hbP : b < P := by
      have h1 : 2 ^ e * b < 2 ^ e * P := by
        calc 2 ^ e * b = b * 2 ^ e := Nat.mul_comm _ _
          _ ≤ a := hbk
          _ < 2 ^ 23 := ha
          _ = 2 ^ e * P := hsplit.symm
      exact Nat.lt_of_mul_lt_mul_left h1
    set m := rhe (a * P) b with hm
    have hkb : k * b ≤ a := Nat.div_mul_le_self a b
    have hmlo : k * P ≤ m := by
      refine Nat.le_trans ?_ (rhe_ge (a * P) b)
      rw [Nat.le_div_iff_mul_le (by omega : 0 < b)]
      calc k * P * b = k * b * P := by ring
        _ ≤ a * P := Nat.mul_le_mul_right P hkb
    have hPpos : 0 < P := by
      rw [hP]
      exact Nat.pow_pos (by omega)
    have hmhi : m < (k + 1) * P := by
      have hq := rhe_le (a * P) b
      set T := (k + 1) * P with hT
      have hT2 : 2 ≤ T := by
        calc 2 = 2 * 1 := by omega
          _ ≤ (k + 1) * P := Nat.mul_le_mul (by omega) hPpos
          _ = T := by rw [hT]
      obtain ⟨r, hr_lt, ha_eq⟩ : ∃ r, r < b ∧ a = k * b + r := by
        refine ⟨a % b, Nat.mod_lt a (by omega), ?_⟩
        have hdm := Nat.div_add_mod' a b
        rw [← hk] at hdm
        omega
      have hTb : T * b = k * b * P + b * P := by rw [hT]; ring
      have hAP : a * P = k * b * P + r * P := by rw [ha_eq]; ring
      have hrP : r * P + P ≤ b * P := by
        calc r * P + P = (r + 1) * P := by ring
          _ ≤ b * P := Nat.mul_le_mul_right P (by omega)
      have hb_le : b ≤ T * b := Nat.le_mul_of_pos_left b (by omega)
      have h1 : a * P < (T - 1) * b := by
        have hrw : (T - 1) * b = T * b - b := by
          rw [Nat.sub_mul, Nat.one_mul]
        rw [hrw]
        omega
      have h2 : a * P / b < T - 1 := by
        rw [Nat.div_lt_iff_lt_mul (by omega : 0 < b)]
        exact h1
      omega
    rw [Nat.div_eq_of_lt_le hmlo (by
      rw [Nat.succ_mul]
      have h2 : (k + 1) * P = k * P + P := by ring
      omega)]
  case neg =>
    push_neg at hba
    have hdiv0 : a / b = 0 := Nat.div_eq_of_lt hba
    have hnot : ¬ 2 ^ 24 ≤ a / b := by omega
    unfold floorF32Div
    rw [if_neg hnot, if_neg (by omega)]
    have hfuel : b ≤ a * 2 ^ b := by
      calc b ≤ 2 ^ b := Nat.le_of_lt (Nat.lt_two_pow b)
        _ = 1 * 2 ^ b := (Nat.one_mul _).symm
        _ ≤ a * 2 ^ b := Nat.mul_le_mul_right _ ha1
    have hup := upshiftFuel_spec b a b ha1 hfuel
    set kk := upshiftFuel b a b with hkk
    have hk1 : 1 ≤ kk := (hup.2 hba).1
    have hmin : a * 2 ^ (kk - 1) < b := (hup.2 hba).2
    set P := 2 ^ (23 + kk) with hP
    have hP24 : 2 ^ 24 ≤ P := by
      rw [hP]
      exact Nat.pow_le_pow_right (by omega) (by omega)
    set m := rhe (a * P) b with hm
    have hsplit : a * P = a * 2 ^ (kk - 1) * 2 ^ 24 := by
      rw [hP]
      have : 23 + kk = kk - 1 + 24 := by omega
      rw [this, Nat.pow_add]
      ring
    have key : a * P + b < P * b := by
      have e1 : a * P + 2 ^ 24 = (a * 2 ^ (kk - 1) + 1) * 2 ^ 24 := by
        rw [hsplit]; ring
      have e2 : (a * 2 ^ (kk - 1) + 1) * 2 ^ 24 ≤ b * 2 ^ 24 :=
        Nat.mul_le_mul_right _ (by omega)
      have e3 : b * 2 ^ 24 ≤ b * P := Nat.mul_le_mul_left b hP24
      have e4 : b < 2 ^ 24 := by
        have : (2 : Nat) ^ 23 < 2 ^ 24 := by norm_num
        omega
      have e5 : b * P = P * b := Nat.mul_comm b P
      omega
    have hmP : m < P := by
      have hq := rhe_le (a * P) b
      have h1 : a * P < (P - 1) * b := by
        have hrw : (P - 1) * b = P * b - b := by
          rw [Nat.sub_mul, Nat.one_mul]
        have hble : b ≤ P * b := by
          calc b = 1 * b := (Nat.one_mul b).symm
            _ ≤ P * b := Nat.mul_le_mul_right b (by omega)
        omega
      have h2 : a * P / b < P - 1 := by
        rw [Nat.div_lt_iff_lt_mul (by omega : 0 < b)]
        exact h1
      omega
    rw [hdiv0]
    exact Nat.div_eq_of_lt hmP

/-- Under the stated bounds the whole `f32` pipeline of
`calculate_bar_width` computes the exact integer floor division
`(dimension - margin_dimension) / labels().count()`. -/
theorem calculate_bar_width_eq_div (g : BarGroup) (d : Nat)
    (hL1 : 1 ≤ g.labels.length) (hL2 : g.labels.length ≤ 2 ^ 23)
    (hM : g.margin_dimension ≤ d) (hx : d - g.margin_dimension < 2 ^ 23) :
    g.calculate_bar_width d = (d - g.margin_dimension) / g.labels.length := by
  unfold BarGroup.calculate_bar_width
  have hws : wrap_sub d g.margin_dimension = d - g.margin_dimension := by
    unfold wrap_sub
    rw [if_pos hM]
  rw [hws]
  set x := d - g.margin_dimension with hxx
  set L := g.labels.length with hLL
  rw [if_neg (by omega)]
  by_cases hx0 : x = 0
  · rw [if_pos hx0, hx0, Nat.zero_div]
  · rw [if_neg hx0]
    have h24 : (2 : Nat) ^ 23 < 2 ^ 24 := by norm_num
    rw [f32ofNat_exact x (by omega), f32ofNat_exact L (by omega),
      floorF32Div_exact x L (by omega) hx hL1 hL2]
    have h1 : x / L ≤ x := Nat.div_le_self x L
    have h2 : (2 : Nat) ^ 23 < USIZE - 1 := by norm_num [USIZE]
    exact Nat.min_eq_left (by omega)

/-! ## Depth-two trees -/

/-- Is this node a leaf-parent (its children are labels)? -/
def BarLabelChildren.leavesOnly : BarLabelChildren → Bool
  | .Labels _ => true
  | .SubGroups _ => false

/-- Are all groups of the list leaf-parents? -/
def BarGroupList.allLeafParents : BarGroupList → Bool
  | .nil => true
  | .cons g t => g.children.leavesOnly && t.allLeafParents

/-- A tree of depth at most two: either a leaf-parent, or an internal
node all of whose children are leaf-parents.  On such trees
`calculate_bar_width`'s margin accounting (this node plus immediate
child groups) covers every margin of the tree. -/
def BarGroup.depthAtMostTwo : BarGroup → Bool
  | .mk _ _ _ _ (.Labels _) => true
  | .mk _ _ _ _ (.SubGroups gs) => gs.allLeafParents

theorem sumWidthFor_leafParents :
    ∀ (gs : BarGroupList) (w : Nat), gs.allLeafParents = true →
      gs.sumWidthFor w = gs.sumMarginTotal + gs.labelsList.length * w
  | .nil, w, _ => by
      simp [BarGroupList.sumWidthFor, BarGroupList.sumMarginTotal,
        BarGroupList.labelsList]
  | .cons g t, w, h => by
      have hsplit : g.children.leavesOnly = true ∧ t.allLeafParents = true := by
        simpa [BarGroupList.allLeafParents] using h
      have ih := sumWidthFor_leafParents t w hsplit.2
      cases g with
      | mk l mb ma mbtw ch =>
        cases ch with
        | SubGroups gs2 =>
            exact absurd hsplit.1 (by
              simp [BarGroup.children, BarLabelChildren.leavesOnly])
        | Labels ls =>
            simp only [BarGroupList.sumWidthFor, BarGroupList.sumMarginTotal,
              BarGroupList.labelsList, BarGroup.width_for_bar_width,
              BarGroup.labels, ih, List.length_append]
            ring

/-- On a depth-two tree, the recursive width equals the flat formula
`margin_dimension + label count * bar width`. -/
theorem width_for_bar_width_depth2 (g : BarGroup) (w : Nat)
    (h : g.depthAtMostTwo = true) :
    g.width_for_bar_width w = g.margin_dimension + g.labels.length * w := by
  cases g with
  | mk l mb ma mbtw ch =>
    cases ch with
    | Labels ls =>
        simp [BarGroup.width_for_bar_width, BarGroup.margin_dimension,
          BarGroup.children, BarGroup.labels]
    | SubGroups gs =>
        have hgs : gs.allLeafParents = true := by
          simpa [BarGroup.depthAtMostTwo] using h
        simp only [BarGroup.width_for_bar_width, BarGroup.margin_dimension,
          BarGroup.children, BarGroup.labels, sumWidthFor_leafParents gs w hgs]
        ring

/-! ## Claim C1 -/

/-- C1 counterexample: a single leaf-parent group with one label and no
margins at dimension `16777217 = 2 ^ 24 + 1`.  The exact floor division
gives `16777217`, but the `f32` cast of the dimension rounds (ties to
even) to `16777216`, which the code returns: the claim's equality with
`⌊(dimension − M) / L⌋` is false as stated. -/
theorem claim1_cex :
    oneLabelFlat.calculate_bar_width 16777217 ≠
      (16777217 - oneLabelFlat.margin_dimension) / oneLabelFlat.labels.length := by
  decide

/-- C1 (amended): for every `BarGroup` tree with at least one leaf label
(and at most `2 ^ 23` of them), and every dimension `d` with
`M ≤ d` and `d − M < 2 ^ 23` — where `M` is `margin_dimension`, this
node's `margin_total` plus the `margin_total` of each immediate child
group only — `calculate_bar_width d` equals the integer floor division
`(d − M) / labels().count()`.  Outside that range the `f32` arithmetic
of the source (24-bit significand) may round, so the original unrestricted
equality fails (`claim1_cex`). -/
theorem claim1_calculate_bar_width_floor (g : BarGroup) (d : Nat)
    (hL1 : 1 ≤ g.labels.length) (hL2 : g.labels.length ≤ 2 ^ 23)
    (hM : g.margin_dimension ≤ d) (hx : d - g.margin_dimension < 2 ^ 23) :
    g.calculate_bar_width d = (d - g.margin_dimension) / g.labels.length :=
  calculate_bar_width_eq_div g d hL1 hL2 hM hx

/-- C1 witness: the amended theorem applied to the crate's unit-test
trees: the flat 8-label group at 800 gives bar width 100, and the
two-level sixties/seventies tree gives 100 at 884 and 4 at 116. -/
theorem claim1_witness :
    yearsFlat.calculate_bar_width 800 = 100 ∧
      sixtiesAndSeventies.calculate_bar_width 884 = 100 ∧
      sixtiesAndSeventies.calculate_bar_width 116 = 4 := by
  refine ⟨?_, ?_, ?_⟩
  · have h := claim1_calculate_bar_width_floor yearsFlat 800 (by decide)
      (by decide) (by decide) (by decide)
    simpa using h
  · have h := claim1_calculate_bar_width_floor sixtiesAndSeventies 884
      (by decide) (by decide) (by decide) (by decide)
    simpa using h
  · have h := claim1_calculate_bar_width_floor sixtiesAndSeventies 116
      (by decide) (by decide) (by decide) (by decide)
    simpa using h

/-! ## Claim C3 -/

/-- C3 counterexample: on the three-level `deepTree` (all pixel margin on
a grandchild) with dimension 10, the round-trip fails badly:
`calculate_bar_width` ignores the grandchild margin so the bar width is
10, and `width_for_bar_width` then reports 60 — far above the claimed
upper bound `d = 10` (the shortfall bound `labels().count() − 1 = 0`). -/
theorem claim3_cex :
    deepTree.width_for_bar_width (deepTree.calculate_bar_width 10) = 60 ∧
      ¬ deepTree.width_for_bar_width (deepTree.calculate_bar_width 10) ≤ 10 := by
  decide

/-- C3 (amended): the recursion formula holds for every node exactly as
claimed: `width_for_bar_width w` is the node's own `margin_total` plus
either the sum of the children's `width_for_bar_width` or
`child_count * w`.  The round-trip holds for trees of depth at most two
(every immediate child group is a leaf-parent — on deeper trees the
margins of grandchildren are counted by `width_for_bar_width` but not by
`calculate_bar_width`, see `claim3_cex`), with at least one and at most
`2 ^ 23` labels, and `M ≤ d`, `d − M < 2 ^ 23`: then
`d − (L − 1) ≤ width_for_bar_width (calculate_bar_width d) ≤ d`. -/
theorem claim3_width_round_trip :
    (∀ (l : String) (mb ma mbtw : Nat) (gs : BarGroupList) (w : Nat),
        (BarGroup.mk l mb ma mbtw (.SubGroups gs)).width_for_bar_width w
          = (BarGroup.mk l mb ma mbtw (.SubGroups gs)).margin_total
              + gs.sumWidthFor w) ∧
    (∀ (l : String) (mb ma mbtw : Nat) (ls : List BarLabel) (w : Nat),
        (BarGroup.mk l mb ma mbtw (.Labels ls)).width_for_bar_width w
          = (BarGroup.mk l mb ma mbtw (.Labels ls)).margin_total
              + (BarGroup.mk l mb ma mbtw (.Labels ls)).child_count * w) ∧
    (∀ (g : BarGroup) (d : Nat), g.depthAtMostTwo = true →
        1 ≤ g.labels.length → g.labels.length ≤ 2 ^ 23 →
        g.margin_dimension ≤ d → d - g.margin_dimension < 2 ^ 23 →
        d - (g.labels.length - 1)
            ≤ g.width_for_bar_width (g.calculate_bar_width d) ∧
          g.width_for_bar_width (g.calculate_bar_width d) ≤ d) := by
  refine ⟨?_, ?_, ?_⟩
  · intro l mb ma mbtw gs w
    simp [BarGroup.width_for_bar_width]
  · intro l mb ma mbtw ls w
    simp [BarGroup.width_for_bar_width, BarGroup.child_count, BarGroup.children]
  · intro g d hdep hL1 hL2 hM hx
    rw [calculate_bar_width_eq_div g d hL1 hL2 hM hx,
      width_for_bar_width_depth2 g _ hdep]
    set x := d - g.margin_dimension with hxx
    set L := g.labels.length with hLL
    set M := g.margin_dimension with hMM
    have hmul : L * (x / L) ≤ x := by
      rw [Nat.mul_comm]
      exact Nat.div_mul_le_self x L
    have hdm : L * (x / L) + x % L = x := Nat.div_add_mod x L
    have hmod : x % L < L := Nat.mod_lt x (by omega)
    constructor
    · omega
    · omega

/-- C3 witness: on the sixties/seventies tree at dimension 116
(8 labels), the round-trip bounds `109 ≤ width ≤ 116` hold. -/
theorem claim3_witness :
    116 - (sixtiesAndSeventies.labels.length - 1)
        ≤ sixtiesAndSeventies.width_for_bar_width
            (sixtiesAndSeventies.calculate_bar_width 116) ∧
      sixtiesAndSeventies.width_for_bar_width
          (sixtiesAndSeventies.calculate_bar_width 116) ≤ 116 :=
  claim3_width_round_trip.2.2 sixtiesAndSeventies 116 (by decide) (by decide)
    (by decide) (by decide) (by decide)

/-! ## Claim C4 -/

/-- C4: the code contradicts the claimed formula on a group with zero
children.  `margin_total` computes
`margin_before + margin_between * usize::max(child_count() - 1, 0) + margin_after`
with `usize` arithmetic: for `child_count() = 0` the subtraction
underflows (panic in a debug build, wrap-around in release), so with
margins 0/1/0 a release build returns `2 ^ 64 - 1` where the claim
(max taken over the integers, i.e. a saturating subtraction — clearly
the author's intent given the vacuous `max(_, 0)` on an unsigned value)
requires `margin_before + margin_after = 0`. -/
theorem claim4_margin_total_underflow :
    zeroChildGroup.margin_total = 2 ^ 64 - 1 ∧
      zeroChildGroup.margin_before + zeroChildGroup.margin_after = 0 := by
  decide

/-! ## Claim C2 -/

mutual

/-- The amended cursor discipline: as `owalk`, except that when a child
group completes the cursor is first reset to one past the last yielded
position's end (cancelling the child's own trailing `margin_between`
advance; a child that yielded nothing leaves the cursor where it stood
before the child's `margin_before` was applied), and then advances by
the child's `margin_after` plus this node's `margin_between`. -/
def BarGroup.awalk : BarGroup → Nat → Nat → List BarPosition × Nat
  | .mk _ _ _ mbtw (.Labels ls), c, w => owalkLabels ls c w mbtw
  | .mk _ _ _ mbtw (.SubGroups gs), c, w => BarGroupList.awalkList gs c w mbtw

def BarGroupList.awalkList : BarGroupList → Nat → Nat → Nat → List BarPosition × Nat
  | .nil, c, _, _ => ([], c)
  | .cons g t, c, w, mbtw =>
      let r := g.awalk (c + g.margin_before) w
      let c2 := (match r.1.getLast? with
                 | some lp => lp.position_end + 1
                 | none => c) + g.margin_after + mbtw
      let rest := BarGroupList.awalkList t c2 w mbtw
      (r.1 ++ rest.1, rest.2)

end

theorem owalkLabels_fst :
    ∀ (ls : List BarLabel) (c w mbtw : Nat),
      (owalkLabels ls c w mbtw).1 = emitLabels ls c w mbtw
  | [], _, _, _ => rfl
  | l :: ls, c, w, mbtw => by
      simp [owalkLabels, emitLabels, owalkLabels_fst ls (c + w + mbtw) w mbtw]

mutual

theorem BarGroup.awalk_fst :
    ∀ (g : BarGroup) (c w : Nat), (g.awalk c w).1 = g.emit c w
  | .mk _ _ _ mbtw (.Labels ls), c, w => owalkLabels_fst ls c w mbtw
  | .mk l mb ma mbtw (.SubGroups gs), c, w => by
      simp only [BarGroup.awalk, BarGroup.emit]
      exact BarGroupList.awalkList_fst gs c w mbtw

theorem BarGroupList.awalkList_fst :
    ∀ (gs : BarGroupList) (c w mbtw : Nat),
      (gs.awalkList c w mbtw).1 = gs.emitList c w mbtw
  | .nil, _, _, _ => rfl
  | .cons g t, c, w, mbtw => by
      simp only [BarGroupList.awalkList, BarGroupList.emitList,
        BarGroup.awalk_fst g (c + g.margin_before) w]
      rw [BarGroupList.awalkList_fst t _ w mbtw]

end

/-- C2 counterexample: on the sixties/seventies tree at dimension 116
the cursor discipline described by the claim (`owalkPositions`, a pure
threading where every emitted label advances the cursor by
`bar_width + margin_between` and a completed child adds
`margin_after + margin_between` on top) puts the fourth label (key 1970)
at pixel 47, while `bar_positions` — which the claim also asserts yields
1970 at pixel 44 — resets the cursor to `position_end + 1` when a child
completes.  The two sentences of the claim contradict each other on the
claim's own test tree, so the claim as stated is false. -/
theorem claim2_cex :
    ((sixtiesAndSeventies.owalkPositions 116).map
        (fun bp => bp.position_start))[3]? = some 47 ∧
      ((sixtiesAndSeventies.bar_positions 116).map
        (fun bp => bp.position_start))[3]? = some 44 ∧
      sixtiesAndSeventies.owalkPositions 116 ≠
        sixtiesAndSeventies.bar_positions 116 := by
  decide

/-- C2 (amended): `bar_positions(dimension)` walks depth-first with a
cursor starting at `1 + margin_before` (1-based): before descending into
a child the cursor advances by that child's `margin_before`; each leaf
label emits `{key, cursor, cursor + bar_width − 1}` and then the cursor
advances by `bar_width + margin_between`; when a child group completes
the cursor is reset to one past the last emitted end (cancelling the
child's trailing between-margin; a child that emitted nothing leaves the
cursor where it stood before its `margin_before`) and then advances by
the child's `margin_after` plus the current node's `margin_between`
(`awalk`).  On the test tree at dimension 116 this yields 1967 at 8,
1968 at 15, 1969 at 22 and 1970 at 44. -/
theorem claim2_bar_positions_cursor :
    (∀ (g : BarGroup) (d : Nat),
        g.bar_positions d
          = (g.awalk (1 + g.margin_before) (g.calculate_bar_width d)).1) ∧
      sixtiesAndSeventies.bar_positions 116
        = [⟨1967, 8, 11⟩, ⟨1968, 15, 18⟩, ⟨1969, 22, 25⟩, ⟨1970, 44, 47⟩,
           ⟨1971, 57, 60⟩, ⟨1972, 70, 73⟩, ⟨1973, 83, 86⟩,
           ⟨1974, 96, 99⟩] := by
  constructor
  · intro g d
    exact (BarGroup.awalk_fst g (1 + g.margin_before)
      (g.calculate_bar_width d)).symm
  · decide

/-! ## Claim C5 -/

theorem emitLabels_keys :
    ∀ (ls : List BarLabel) (p w mbtw : Nat),
      (emitLabels ls p w mbtw).map (fun bp => bp.key)
        = ls.map (fun bl => bl.key)
  | [], _, _, _ => rfl
  | l :: ls, p, w, mbtw => by
      simp [emitLabels, emitLabels_keys ls (p + w + mbtw) w mbtw]

mutual

theorem BarGroup.emit_keys :
    ∀ (g : BarGroup) (p w : Nat),
      (g.emit p w).map (fun bp => bp.key) = g.labels.map (fun bl => bl.key)
  | .mk _ _ _ mbtw (.Labels ls), p, w => emitLabels_keys ls p w mbtw
  | .mk l mb ma mbtw (.SubGroups gs), p, w => by
      simp only [BarGroup.emit, BarGroup.labels]
      exact BarGroupList.emitList_keys gs p w mbtw

theorem BarGroupList.emitList_keys :
    ∀ (gs : BarGroupList) (p w mbtw : Nat),
      (gs.emitList p w mbtw).map (fun bp => bp.key)
        = gs.labelsList.map (fun bl => bl.key)
  | .nil, _, _, _ => rfl
  | .cons g t, p, w, mbtw => by
      simp only [BarGroupList.emitList, BarGroupList.labelsList, List.map_append]
      rw [BarGroup.emit_keys g (p + g.margin_before) w,
        BarGroupList.emitList_keys t _ w mbtw]

end

/-- C5: for every tree and dimension, the keys of the `BarPosition`
values yielded by `bar_positions` are exactly the keys of the leaf
labels yielded by `labels()`: same keys, same depth-first left-to-right
order, same length. -/
theorem claim5_positions_match_labels (g : BarGroup) (d : Nat) :
    (g.bar_positions d).map (fun bp => bp.key)
      = g.labels.map (fun bl => bl.key) :=
  BarGroup.emit_keys g (1 + g.margin_before) (g.calculate_bar_width d)

/-! ## Claim C7 -/

/-- The aggregation of `[("C",10),("B",20),("A",30)]` into a fresh
accumulator with no predefined category order (the `(CAT, VAL)` pair
form of `CategorisedValue` uses segment key `0`). -/
def cvCBA : CategorisedValues String Nat Nat :=
  CVOp.run [.addData [("C", 0, 10), ("B", 0, 20), ("A", 0, 30)]]

/-- C7: aggregating `[("C",10),("B",20),("A",30)]` with no predefined
category order yields exactly three categories with indices 0, 1, 2
(ascending index order = first-seen order), labels C, B, A and totals
(`height`) 10, 20, 30. -/
theorem claim7_first_seen_order :
    cvCBA.category_keys.list = ["C", "B", "A"] ∧
      cvCBA.categories.map (fun p => (p.1, p.2.height))
        = [(0, 10), (1, 20), (2, 30)] ∧
      cvCBA.categories.map (fun p => cvCBA.category_index_to_label p.1)
        = ["C", "B", "A"].map (fun s => Option.some s) := by
  decide

/-! ## Claim C8 -/

theorem applyAdds_magnitude {VAL : Type} [Add VAL] [Zero VAL] :
    ∀ (calls : List (Nat × VAL)) (sv : SegmentedValue VAL),
      (sv.applyAdds calls).magnitude
        = calls.foldl (fun a c => a + c.2) sv.magnitude
  | [], _ => rfl
  | c :: calls, sv => by
      show ((sv.add c.1 c.2).applyAdds calls).magnitude = _
      rw [applyAdds_magnitude calls (sv.add c.1 c.2)]
      rfl

theorem lookup_eq_none_of_lt {VAL : Type} (i : Nat) :
    ∀ (l : List (Nat × VAL)), (∀ p ∈ l, i < p.1) → List.lookup i l = none
  | [], _ => rfl
  | (j, w) :: rest, h => by
      have hij : i < j := h (j, w) (List.mem_cons_self _ _)
      have hbeq : (i == j) = false := by
        simp [Nat.ne_of_lt hij]
      simp only [List.lookup, hbeq]
      exact lookup_eq_none_of_lt i rest (fun p hp => h p (List.mem_cons_of_mem _ hp))

theorem segUpsert_lookup {VAL : Type} [Add VAL] [Zero VAL] :
    ∀ (l : List (Nat × VAL)) (i : Nat) (v : VAL),
      l.Pairwise (fun p q => p.1 < q.1) →
      List.lookup i (segUpsert l i v) = some ((List.lookup i l).getD 0 + v)
  | [], i, v, _ => by simp [segUpsert, List.lookup]
  | (j, w) :: rest, i, v, h => by
      rcases Nat.lt_trichotomy i j with hij | hij | hij
      · have hbeq : (i == j) = false := by simp [Nat.ne_of_lt hij]
        have hrest : List.lookup i rest = none := by
          refine lookup_eq_none_of_lt i rest (fun p hp => ?_)
          have := (List.pairwise_cons.1 h).1 p hp
          omega
        simp [segUpsert, hij, List.lookup, hbeq, hrest]
      · subst hij
        simp [segUpsert, List.lookup]
      · have hbeq : (i == j) = false := by
          simp [(Nat.ne_of_lt hij).symm]
        have h1 : ¬ i < j := by omega
        have h2 : ¬ i = j := by omega
        have ih := segUpsert_lookup rest i v (List.pairwise_cons.1 h).2
        simp [segUpsert, h1, h2, List.lookup, hbeq, ih]

/-- C8: `height()` of a `SegmentedValue` equals the running sum of every
value ever passed to `add`, however the calls are distributed over
segment indices: for any initial accumulator the height after a call
sequence is the left fold of addition over the values (so from the
default accumulator it is the plain sum); each single `add` bumps the
height and the addressed bucket — created at zero if absent — by the
same value (bucket clause stated for the sorted association lists that
represent genuine `BTreeMap` contents). -/
theorem claim8_height_is_sum {VAL : Type} [Add VAL] [Zero VAL] :
    (∀ (calls : List (Nat × VAL)) (sv : SegmentedValue VAL),
        (sv.applyAdds calls).height
          = calls.foldl (fun a c => a + c.2) sv.height) ∧
      (∀ (sv : SegmentedValue VAL) (i : Nat) (v : VAL),
        (sv.add i v).height = sv.height + v) ∧
      (∀ (sv : SegmentedValue VAL) (i : Nat) (v : VAL),
        sv.segments.Pairwise (fun p q => p.1 < q.1) →
        (sv.add i v).value_of_segment i
          = some ((sv.value_of_segment i).getD 0 + v)) := by
  refine ⟨fun calls sv => applyAdds_magnitude calls sv, fun _ _ _ => rfl, ?_⟩
  intro sv i v hs
  exact segUpsert_lookup sv.segments i v hs

/-- C8 witness: concrete instances of all three clauses over `Nat`. -/
theorem claim8_witness :
    ((SegmentedValue.empty : SegmentedValue Nat).applyAdds
        [(0, 3), (1, 4), (0, 5)]).height = 12 ∧
      ((⟨[(1, 2)], 2⟩ : SegmentedValue Nat).add 1 5).value_of_segment 1
        = some 7 := by
  constructor
  · exact (claim8_height_is_sum.1 [(0, 3), (1, 4), (0, 5)]
      (SegmentedValue.empty : SegmentedValue Nat)).trans (by decide)
  · exact (claim8_height_is_sum.2.2 (⟨[(1, 2)], 2⟩ : SegmentedValue Nat)
      1 5 (by decide)).trans (by decide)

/-! ## Claim C9 -/

/-- First-occurrence filter with an accumulator of already-seen keys
(structural recursion, hence kernel-reducible). -/
def fsAux {α : Type} [DecidableEq α] : List α → List α → List α
  | _, [] => []
  | seen, k :: rest =>
      if k ∈ seen then fsAux seen rest else k :: fsAux (k :: seen) rest

/-- The distinct keys of `ks` in order of first occurrence. -/
def firstSeen {α : Type} [DecidableEq α] (ks : List α) : List α := fsAux [] ks

theorem idxOf?_eq_none_iff {α : Type} [DecidableEq α] :
    ∀ (l : List α) (k : α), idxOf? l k = none ↔ k ∉ l
  | [], k => by simp [idxOf?]
  | x :: xs, k => by
      by_cases hx : x = k
      · simp [idxOf?, hx]
      · simp [idxOf?, hx, idxOf?_eq_none_iff xs k, Ne.symm hx]

theorem idxOf?_lt_length {α : Type} [DecidableEq α] :
    ∀ (l : List α) (k : α) (i : Nat), idxOf? l k = some i → i < l.length
  | [], k, i => by simp [idxOf?]
  | x :: xs, k, i => by
      by_cases hx : x = k
      · simp [idxOf?, hx]
        omega
      · simp only [idxOf?, if_neg hx, Option.map_eq_some']
        rintro ⟨j, hj, rfl⟩
        have := idxOf?_lt_length xs k j hj
        simp only [List.length_cons]
        omega

/-- On a member key, `define_if_not_exist` returns the existing index
(the map lookup) and leaves the set untouched. -/
theorem define_if_not_exist_of_mem {α : Type} [DecidableEq α]
    (s : OrderedSet α) (k : α) (h : k ∈ s.list) :
    (s.define_if_not_exist k).2 = s ∧
      s.index_of k = some (s.define_if_not_exist k).1 := by
  unfold OrderedSet.define_if_not_exist OrderedSet.index_of
  match hidx : idxOf? s.list k with
  | some i => exact ⟨rfl, rfl⟩
  | none => exact absurd ((idxOf?_eq_none_iff s.list k).1 hidx) (by simp [h])

theorem fsAux_congr {α : Type} [DecidableEq α] :
    ∀ (ks seen1 seen2 : List α), (∀ x, x ∈ seen1 ↔ x ∈ seen2) →
      fsAux seen1 ks = fsAux seen2 ks
  | [], _, _, _ => rfl
  | k :: ks, seen1, seen2, h => by
      by_cases hk : k ∈ seen1
      · rw [fsAux, fsAux, if_pos hk, if_pos ((h k).1 hk)]
        exact fsAux_congr ks seen1 seen2 h
      · rw [fsAux, fsAux, if_neg hk, if_neg (fun hc => hk ((h k).2 hc))]
        refine congrArg (k :: ·) (fsAux_congr ks (k :: seen1) (k :: seen2) ?_)
        intro x
        simp only [List.mem_cons]
        exact or_congr Iff.rfl (h x)

theorem foldl_define_eq_fsAux {α : Type} [DecidableEq α] :
    ∀ (ks : List α) (s : OrderedSet α),
      (ks.foldl (fun s k => (s.define_if_not_exist k).2) s).list
        = s.list ++ fsAux s.list ks
  | [], s => by simp [fsAux]
  | k :: ks, s => by
      by_cases hk : k ∈ s.list
      · have hstep : (s.define_if_not_exist k).2 = s :=
          (define_if_not_exist_of_mem s k hk).1
        show ((ks.foldl _ (s.define_if_not_exist k).2)).list = _
        rw [hstep, foldl_define_eq_fsAux ks s, fsAux, if_pos hk]
      · have hnone : idxOf? s.list k = none := (idxOf?_eq_none_iff s.list k).2 hk
        have hstep : (s.define_if_not_exist k).2 = ⟨s.list ++ [k]⟩ := by
          unfold OrderedSet.define_if_not_exist
          rw [hnone]
        show ((ks.foldl _ (s.define_if_not_exist k).2)).list = _
        rw [hstep, foldl_define_eq_fsAux ks ⟨s.list ++ [k]⟩]
        show s.list ++ [k] ++ fsAux (s.list ++ [k]) ks = _
        rw [fsAux, if_neg hk,
          fsAux_congr ks (s.list ++ [k]) (k :: s.list)
            (by intro x; simp [List.mem_append, List.mem_cons, or_comm]),
          List.append_assoc]
        rfl

theorem fsAux_nodup {α : Type} [DecidableEq α] :
    ∀ (ks seen : List α),
      (fsAux seen ks).Nodup ∧ ∀ x ∈ fsAux seen ks, x ∉ seen
  | [], seen => by simp [fsAux]
  | k :: ks, seen => by
      by_cases hk : k ∈ seen
      · rw [fsAux, if_pos hk]
        exact fsAux_nodup ks seen
      · rw [fsAux, if_neg hk]
        have ih := fsAux_nodup ks (k :: seen)
        constructor
        · refine List.nodup_cons.2 ⟨fun hc => ?_, ih.1⟩
          exact ih.2 k hc (List.mem_cons_self _ _)
        · intro x hx
          rcases List.mem_cons.1 hx with rfl | hx2
          · exact hk
          · exact fun hc => ih.2 x hx2 (List.mem_cons_of_mem _ hc)

/-- C9: folding any key sequence through `define_if_not_exist` builds
exactly the duplicate-free list of keys in first-occurrence order (so
each distinct key owns exactly one index, its 0-based first-occurrence
rank); on an already-present key, `define_if_not_exist` returns the
key's existing index (the map lookup `index_of`) and leaves the set —
hence its length and every previously assigned index — unchanged. -/
theorem claim9_define_if_not_exist_stable {α : Type} [DecidableEq α] :
    (∀ ks : List α,
        (OrderedSet.insertAll ks).list = firstSeen ks ∧ (firstSeen ks).Nodup) ∧
      (∀ (s : OrderedSet α) (k : α), k ∈ s.list →
        (s.define_if_not_exist k).2 = s ∧
          s.index_of k = some (s.define_if_not_exist k).1) := by
  constructor
  · intro ks
    constructor
    · have h := foldl_define_eq_fsAux ks OrderedSet.new
      simpa [OrderedSet.insertAll, OrderedSet.new, firstSeen] using h
    · exact (fsAux_nodup ks []).1
  · exact define_if_not_exist_of_mem

/-- C9 witness: inserting `[3, 1, 3]` gives the list `[3, 1]`, and
re-defining the present key `3` returns index 0 with the set unchanged. -/
theorem claim9_witness :
    (OrderedSet.insertAll [3, 1, 3] : OrderedSet Nat).list = firstSeen [3, 1, 3] ∧
      ((OrderedSet.insertAll [3, 1, 3] : OrderedSet Nat).define_if_not_exist 3).2
          = OrderedSet.insertAll [3, 1, 3] ∧
        (OrderedSet.insertAll [3, 1, 3] : OrderedSet Nat).index_of 3
          = some ((OrderedSet.insertAll [3, 1, 3] :
              OrderedSet Nat).define_if_not_exist 3).1 :=
  ⟨(claim9_define_if_not_exist_stable.1 [3, 1, 3]).1,
    claim9_define_if_not_exist_stable.2 (OrderedSet.insertAll [3, 1, 3]) 3
      (by decide)⟩

/-! ## Claims C6 and C10: reachable-state invariants -/

section Invariants

variable {CAT SEG VAL : Type} [DecidableEq CAT] [DecidableEq SEG]
variable [Add VAL] [Zero VAL]

/-- The index returned by `define_if_not_exist` is in bounds of the
resulting set. -/
theorem define_if_not_exist_lt (s : OrderedSet α) [DecidableEq α] (k : α) :
    (s.define_if_not_exist k).1 < (s.define_if_not_exist k).2.list.length := by
  unfold OrderedSet.define_if_not_exist
  match hidx : idxOf? s.list k with
  | some i => exact idxOf?_lt_length s.list k i hidx
  | none => simp

/-- `define_if_not_exist` never shrinks the set. -/
theorem define_if_not_exist_mono (s : OrderedSet α) [DecidableEq α] (k : α) :
    s.list.length ≤ (s.define_if_not_exist k).2.list.length := by
  unfold OrderedSet.define_if_not_exist
  match hidx : idxOf? s.list k with
  | some i => exact Nat.le_refl _
  | none => simp

/-- Every entry of `catUpsert l bi si v` either carries the key `bi` or
descends from an entry of `l` (same key; the accumulator may have had
`add` applied to it). -/
theorem catUpsert_mem :
    ∀ (l : List (Nat × SegmentedValue VAL)) (bi si : Nat) (v : VAL)
      (p : Nat × SegmentedValue VAL), p ∈ catUpsert l bi si v →
      p.1 = bi ∨ ∃ q ∈ l, p.1 = q.1
  | [], bi, si, v, p => by
      intro hp
      rw [catUpsert] at hp
      obtain rfl := List.mem_singleton.1 hp
      exact Or.inl rfl
  | (k, sv) :: rest, bi, si, v, p => by
      intro hp
      by_cases h1 : bi < k
      · rw [catUpsert, if_pos h1] at hp
        rcases List.mem_cons.1 hp with rfl | hp2
        · exact Or.inl rfl
        · rcases List.mem_cons.1 hp2 with rfl | hp3
          · exact Or.inr ⟨(k, sv), List.mem_cons_self _ _, rfl⟩
          · exact Or.inr ⟨p, List.mem_cons_of_mem _ hp3, rfl⟩
      · by_cases h2 : bi = k
        · rw [catUpsert, if_neg h1, if_pos h2] at hp
          rcases List.mem_cons.1 hp with rfl | hp2
          · exact Or.inl h2.symm
          · exact Or.inr ⟨p, List.mem_cons_of_mem _ hp2, rfl⟩
        · rw [catUpsert, if_neg h1, if_neg h2] at hp
          rcases List.mem_cons.1 hp with rfl | hp2
          · exact Or.inr ⟨(k, sv), List.mem_cons_self _ _, rfl⟩
          · rcases catUpsert_mem rest bi si v p hp2 with h | ⟨q, hq, hpq⟩
            · exact Or.inl h
            · exact Or.inr ⟨q, List.mem_cons_of_mem _ hq, hpq⟩

/-- The category-index in-bounds invariant, as a proposition. -/
def CatInv (cv : CategorisedValues CAT SEG VAL) : Prop :=
  ∀ p ∈ cv.values, p.1 < cv.category_keys.list.length

theorem addItem_catInv (cv : CategorisedValues CAT SEG VAL)
    (it : CAT × SEG × VAL) (h : CatInv cv) : CatInv (cv.addItem it) := by
  intro p hp
  have hbound := define_if_not_exist_lt cv.category_keys it.1
  have hmono := define_if_not_exist_mono cv.category_keys it.1
  rcases catUpsert_mem cv.values (cv.category_keys.define_if_not_exist it.1).1
      (cv.segment_keys.define_if_not_exist it.2.1).1 it.2.2 p hp with
    hkey | ⟨q, hq, hpq⟩
  · rw [hkey]
    exact hbound
  · have := h q hq
    show p.1 < (cv.category_keys.define_if_not_exist it.1).2.list.length
    omega

theorem add_data_catInv :
    ∀ (items : List (CAT × SEG × VAL)) (cv : CategorisedValues CAT SEG VAL),
      CatInv cv → CatInv (cv.add_data items)
  | [], _, h => h
  | it :: items, cv, h =>
      add_data_catInv items (cv.addItem it) (addItem_catInv cv it h)

omit [DecidableEq CAT] [DecidableEq SEG] [Add VAL] [Zero VAL] in
theorem okSeq_cons_skip (o : CVOp CAT SEG VAL) (ops : List (CVOp CAT SEG VAL))
    (h : o.isAddData = false) : CVOp.okSeq (o :: ops) = CVOp.okSeq ops := by
  simp [CVOp.okSeq, List.dropWhile, h]

omit [DecidableEq CAT] [DecidableEq SEG] [Add VAL] [Zero VAL] in
theorem okSeq_cons_addData (o : CVOp CAT SEG VAL) (ops : List (CVOp CAT SEG VAL))
    (h : o.isAddData = true) :
    CVOp.okSeq (o :: ops)
      = (o :: ops).all (fun o => !o.isWithCategories) := by
  simp [CVOp.okSeq, List.dropWhile, h]

theorem run_from_catInv :
    ∀ (ops : List (CVOp CAT SEG VAL)) (cv : CategorisedValues CAT SEG VAL),
      CatInv cv →
      ((cv.values = [] ∧ CVOp.okSeq ops = true) ∨
        ops.all (fun o => !o.isWithCategories) = true) →
      CatInv (ops.foldl CVOp.step cv)
  | [], cv, h, _ => h
  | op :: ops, cv, h, hside => by
      show CatInv (ops.foldl CVOp.step (CVOp.step cv op))
      cases op with
      | withCategories ks =>
          rcases hside with ⟨hv, hok⟩ | hall
          · refine run_from_catInv ops (cv.with_categories ks) ?_ (Or.inl ⟨?_, ?_⟩)
            · intro p hp
              exact absurd hp (by simp [CategorisedValues.with_categories, hv])
            · simpa [CategorisedValues.with_categories] using hv
            · rwa [okSeq_cons_skip _ _ (by simp [CVOp.isAddData])] at hok
          · exact absurd hall (by simp [CVOp.isWithCategories])
      | withSegments ks =>
          have hinv : CatInv (cv.with_segments ks) := by
            intro p hp
            exact h p hp
          rcases hside with ⟨hv, hok⟩ | hall
          · refine run_from_catInv ops _ hinv (Or.inl ⟨?_, ?_⟩)
            · simpa [CategorisedValues.with_segments] using hv
            · rwa [okSeq_cons_skip _ _ (by simp [CVOp.isAddData])] at hok
          · refine run_from_catInv ops _ hinv (Or.inr ?_)
            simp only [List.all_cons, Bool.and_eq_true] at hall
            exact hall.2
      | addData items =>
          have hinv : CatInv (cv.add_data items) := add_data_catInv items cv h
          have hall : ops.all (fun o => !o.isWithCategories) = true := by
            rcases hside with ⟨hv, hok⟩ | hall
            · rw [okSeq_cons_addData _ _ (by simp [CVOp.isAddData])] at hok
              simp at hok
              simpa using hok.2
            · simp at hall
              simpa using hall.2
          exact run_from_catInv ops _ hinv (Or.inr hall)

/-- Builder sequence that ingests two fresh categories and only then
predefines a single-key category order. -/
def opsLateCats : List (CVOp Nat Nat Nat) :=
  [.addData [(0, 0, 1), (1, 0, 1)], .withCategories [5]]

/-- Well-ordered builder sequence: category order first, then data. -/
def opsCatsFirst : List (CVOp Nat Nat Nat) :=
  [.withCategories [7, 8], .addData [(9, 0, 3), (7, 1, 4)]]

/-- C6 counterexample: in the sequence `add_data` then `with_categories`,
the late `with_categories` clears the category set, stranding the
already-assigned index 1 in the values map: `category_index_to_label`
would index out of bounds, so the claim's "any order" is false. -/
theorem claim6_cex : (CVOp.run opsLateCats).allInBounds = false := by
  decide

/-- C6 (amended): for every builder sequence in which no
`with_categories` call occurs after an `add_data` call (`okSeq`), every
category index present in the values map is strictly below the category
set's length, so mapping `categories()` through
`category_index_to_label()` never indexes out of bounds.  A late
`with_categories` clears the category set and breaks the invariant
(`claim6_cex`). -/
theorem claim6_indices_in_bounds {CAT SEG VAL : Type} [DecidableEq CAT]
    [DecidableEq SEG] [Add VAL] [Zero VAL] (ops : List (CVOp CAT SEG VAL))
    (hok : CVOp.okSeq ops = true) : (CVOp.run ops).allInBounds = true := by
  have hinv : CatInv (CVOp.run ops) := by
    refine run_from_catInv ops CategorisedValues.new ?_ (Or.inl ⟨rfl, hok⟩)
    intro p hp
    exact absurd hp (by simp [CategorisedValues.new])
  unfold CategorisedValues.allInBounds
  rw [List.all_eq_true]
  intro p hp
  have := hinv p hp
  unfold CategorisedValues.category_index_to_label
  rw [List.getElem?_eq_getElem this]
  rfl

/-- C6 witness: a well-ordered concrete sequence (categories predefined
first, then data) satisfies both the hypothesis and the invariant. -/
theorem claim6_witness :
    CVOp.okSeq opsCatsFirst = true ∧
      (CVOp.run opsCatsFirst).allInBounds = true :=
  ⟨by decide, claim6_indices_in_bounds opsCatsFirst (by decide)⟩

/-- Every bucket list produced by `segUpsert` is nonempty. -/
theorem segUpsert_ne_nil (l : List (Nat × VAL)) (i : Nat) (v : VAL) :
    segUpsert l i v ≠ [] := by
  match l with
  | [] => simp [segUpsert]
  | (j, w) :: rest =>
      unfold segUpsert
      split
      · simp
      · split <;> simp

/-- The lazily-created-accumulator invariant: every stored
`SegmentedValue` has at least one segment bucket. -/
def ValuesInv (cv : CategorisedValues CAT SEG VAL) : Prop :=
  ∀ p ∈ cv.values, p.2.has_values = true

theorem catUpsert_valuesInv :
    ∀ (l : List (Nat × SegmentedValue VAL)) (bi si : Nat) (v : VAL),
      (∀ p ∈ l, p.2.has_values = true) →
      ∀ p ∈ catUpsert l bi si v, p.2.has_values = true
  | [], bi, si, v, _, p => by
      simp only [catUpsert, List.mem_singleton]
      rintro rfl
      simp [SegmentedValue.has_values, SegmentedValue.add]
      have := segUpsert_ne_nil ([] : List (Nat × VAL)) si v
      exact List.length_pos.2 this
  | (k, sv) :: rest, bi, si, v, h, p => by
      by_cases h1 : bi < k
      · simp only [catUpsert, if_pos h1, List.mem_cons]
        rintro (rfl | hmem | hmem)
        · simp [SegmentedValue.has_values, SegmentedValue.add]
          exact List.length_pos.2 (segUpsert_ne_nil _ si v)
        · exact h _ (by rw [hmem]; exact List.mem_cons_self _ _)
        · exact h p (List.mem_cons_of_mem _ hmem)
      · by_cases h2 : bi = k
        · simp only [catUpsert, if_neg h1, if_pos h2, List.mem_cons]
          rintro (rfl | hmem)
          · simp [SegmentedValue.has_values, SegmentedValue.add]
            exact List.length_pos.2 (segUpsert_ne_nil _ si v)
          · exact h p (List.mem_cons_of_mem _ hmem)
        · simp only [catUpsert, if_neg h1, if_neg h2, List.mem_cons]
          rintro (rfl | hmem)
          · exact h _ (List.mem_cons_self _ _)
          · exact catUpsert_valuesInv rest bi si v
              (fun q hq => h q (List.mem_cons_of_mem _ hq)) p hmem

theorem addItem_valuesInv (cv : CategorisedValues CAT SEG VAL)
    (it : CAT × SEG × VAL) (h : ValuesInv cv) : ValuesInv (cv.addItem it) :=
  catUpsert_valuesInv cv.values _ _ it.2.2 h

theorem add_data_valuesInv :
    ∀ (items : List (CAT × SEG × VAL)) (cv : CategorisedValues CAT SEG VAL),
      ValuesInv cv → ValuesInv (cv.add_data items)
  | [], _, h => h
  | it :: items, cv, h =>
      add_data_valuesInv items (cv.addItem it) (addItem_valuesInv cv it h)

theorem run_from_valuesInv :
    ∀ (ops : List (CVOp CAT SEG VAL)) (cv : CategorisedValues CAT SEG VAL),
      ValuesInv cv → ValuesInv (ops.foldl CVOp.step cv)
  | [], cv, h => h
  | op :: ops, cv, h => by
      show ValuesInv (ops.foldl CVOp.step (CVOp.step cv op))
      cases op with
      | withCategories ks =>
          exact run_from_valuesInv ops _ (fun p hp => h p hp)
      | withSegments ks =>
          exact run_from_valuesInv ops _ (fun p hp => h p hp)
      | addData items =>
          exact run_from_valuesInv ops _ (add_data_valuesInv items cv h)

/-- Every accumulator yielded by `categories()` has a segment bucket. -/
def CategorisedValues.allHaveValues (cv : CategorisedValues CAT SEG VAL) : Bool :=
  cv.values.all (fun p => p.2.has_values)

/-- C10: for every builder sequence (in any order), every
`(category index, SegmentedValue)` pair yielded by `categories()`
satisfies `has_values() = true`: accumulators are created lazily by the
first `add` for their category, which immediately creates a bucket, so
`categories()` never yields an empty accumulator. -/
theorem claim10_no_empty_accumulator {CAT SEG VAL : Type} [DecidableEq CAT]
    [DecidableEq SEG] [Add VAL] [Zero VAL] (ops : List (CVOp CAT SEG VAL)) :
    (CVOp.run ops).allHaveValues = true := by
  have hinv : ValuesInv (CVOp.run ops) := by
    refine run_from_valuesInv ops CategorisedValues.new ?_
    intro p hp
    exact absurd hp (by simp [CategorisedValues.new])
  unfold CategorisedValues.allHaveValues
  rw [List.all_eq_true]
  exact hinv

end Invariants
